import Mathlib

/-!
Verification of the blossom packaging core: variable substitution
(`replace_vars` driven by the regex pattern of two percent-brace delimiters
around one-or-more non-closing-brace characters), manifest parsing
(`Package::parse`), checksum verification (`check_hash`) and the tarball
output path (`create_tarball`).

Machine strings are modelled as `List Char`; fallible operations return
`Option`, with `none` standing for the failure exit of the original code
(a `?`-propagated error, or for `replace_vars` the `.expect` panic).
-/

namespace Blossom

/-- Exact-match lookup in the variable table (`HashMap::get` on `&str` keys;
the table is modelled as an association list with distinct keys). -/
def lookupVar (vars : List (String × String)) (k : String) : Option String :=
  (vars.find? (fun pr => pr.1 == k)).map Prod.snd

/-- Scanner state for one pass of `VARIABLE_REGEX.replace_all`:
`normal` is ordinary scanning, `pct` means a percent has been seen and is
pending, `collecting name` means a placeholder opener has been seen and
`name` holds the characters collected so far. -/
inductive ScanSt where
  | normal
  | pct
  | collecting (name : List Char)
deriving DecidableEq

/-- One left-to-right pass of `VARIABLE_REGEX.replace_all` from
`src/package.rs` (pattern: percent, open brace, one-or-more characters
that are not a close brace, close brace), with the missing-variable panic
of `replace_vars` modelled as `none`.  When the input ends with a pending
percent or in collecting state, the pending text is emitted verbatim (the
regex finds no match without a closing brace); an empty collected name is
also emitted verbatim (the regex requires at least one name character).
Replacement text is spliced into the output and never rescanned, exactly
as `Regex::replace_all` does. -/
def scan (vars : List (String × String)) : ScanSt → List Char → Option (List Char)
  | ScanSt.normal, [] => some []
  | ScanSt.normal, c :: rest =>
    if c = '%' then scan vars ScanSt.pct rest
    else (scan vars ScanSt.normal rest).map (fun t => c :: t)
  | ScanSt.pct, [] => some ['%']
  | ScanSt.pct, c :: rest =>
    if c = '\x7b' then scan vars (ScanSt.collecting []) rest
    else if c = '%' then (scan vars ScanSt.pct rest).map (fun t => '%' :: t)
    else (scan vars ScanSt.normal rest).map (fun t => '%' :: c :: t)
  | ScanSt.collecting name, [] => some ('%' :: '\x7b' :: name)
  | ScanSt.collecting name, c :: rest =>
    if c = '\x7d' then
      if name = [] then
        (scan vars ScanSt.normal rest).map (fun t => '%' :: '\x7b' :: '\x7d' :: t)
      else
        (lookupVar vars (String.mk name)).bind
          (fun v => (scan vars ScanSt.normal rest).map (fun t => v.data ++ t))
    else scan vars (ScanSt.collecting (name ++ [c])) rest

/-- `replace_vars` from `src/package.rs`: replace every regex match in the
haystack by the table value of its captured name; `none` models the
`.expect("Unknown variable")` panic. -/
def replaceVars (vars : List (String × String)) (s : String) : Option String :=
  (scan vars ScanSt.normal s.data).map String.mk

/-- Decision procedure for "the haystack contains at least one match of the
placeholder pattern", by the same single pass as `scan`. -/
def hasPH : ScanSt → List Char → Bool
  | ScanSt.normal, [] => false
  | ScanSt.normal, c :: rest =>
    if c = '%' then hasPH ScanSt.pct rest else hasPH ScanSt.normal rest
  | ScanSt.pct, [] => false
  | ScanSt.pct, c :: rest =>
    if c = '\x7b' then hasPH (ScanSt.collecting []) rest
    else if c = '%' then hasPH ScanSt.pct rest
    else hasPH ScanSt.normal rest
  | ScanSt.collecting _, [] => false
  | ScanSt.collecting name, c :: rest =>
    if c = '\x7d' then
      if name = [] then hasPH ScanSt.normal rest else true
    else hasPH (ScanSt.collecting (name ++ [c])) rest

/-- The captured names of all placeholder matches of the haystack, in
scanning order, by the same single pass as `scan`. -/
def phNames : ScanSt → List Char → List String
  | ScanSt.normal, [] => []
  | ScanSt.normal, c :: rest =>
    if c = '%' then phNames ScanSt.pct rest else phNames ScanSt.normal rest
  | ScanSt.pct, [] => []
  | ScanSt.pct, c :: rest =>
    if c = '\x7b' then phNames (ScanSt.collecting []) rest
    else if c = '%' then phNames ScanSt.pct rest
    else phNames ScanSt.normal rest
  | ScanSt.collecting _, [] => []
  | ScanSt.collecting name, c :: rest =>
    if c = '\x7d' then
      if name = [] then phNames ScanSt.normal rest
      else String.mk name :: phNames ScanSt.normal rest
    else phNames (ScanSt.collecting (name ++ [c])) rest

/-- Declarative reading of the placeholder grammar of `VARIABLE_REGEX`
(`src/package.rs` line 112): a percent and an open brace, then one or more
characters none of which is a close brace, then a close brace; the matched
name is the text between the braces taken verbatim. -/
def occ (l : List Char) : Prop :=
  ∃ pre name post,
    l = pre ++ '%' :: '\x7b' :: (name ++ '\x7d' :: post) ∧
    name ≠ [] ∧ '\x7d' ∉ name

/-- A usable variable value: nonempty and free of the three characters
that delimit placeholders, so splicing it into the output can neither
create nor destroy a match boundary. -/
def cleanVal (v : String) : Prop :=
  v.data ≠ [] ∧ ∀ c ∈ v.data, c ≠ '%' ∧ c ≠ '\x7b' ∧ c ≠ '\x7d'

/-- All values of a variable table are usable. -/
def cleanVars (vars : List (String × String)) : Prop :=
  ∀ pr ∈ vars, cleanVal pr.2

instance (v : String) : Decidable (cleanVal v) := by
  unfold cleanVal
  infer_instance

instance (vars : List (String × String)) : Decidable (cleanVars vars) := by
  unfold cleanVars
  infer_instance

/-! ## Manifest data model (`src/package.rs`) -/

/-- `Info`: package identity.  The SPDX expression is kept as its source
string; its grammar is the `spdx` crate's concern. -/
structure Info where
  name : String
  version : String
  description : String
  license : String
deriving DecidableEq

/-- `Dependencies`: three lists of opaque package names. -/
structure Dependencies where
  required : List String
  optional : List String
  build : List String
deriving DecidableEq

/-- `Source`: one fetchable input with its checksum string. -/
structure Source where
  url : String
  checksum : String
deriving DecidableEq

/-- `Runner`: closed enumeration of command interpreters. -/
inductive Runner where
  | shell
deriving DecidableEq

/-- `StepVariant`: a shell command or a file relocation. -/
inductive StepVariant where
  | command (runner : Runner) (command : String)
  | move (path : String)
deriving DecidableEq

/-- `Step`: a named unit of build work. -/
structure Step where
  name : String
  variant : StepVariant
deriving DecidableEq

/-- `Package`: the root manifest aggregate.  The `directories` map is
modelled as an association list. -/
structure Package where
  info : Info
  dependencies : Option Dependencies
  sources : List Source
  steps : List Step
  directories : List (String × String)
deriving DecidableEq

/-- The variable table built by `Package::parse`: `version` inserted first,
then `pkgdir` as the current working directory joined with `package`. -/
def parseVars (cwd : String) (p : Package) : List (String × String) :=
  [("version", p.info.version), ("pkgdir", cwd ++ "/package")]

/-- Substitution applied to one source, as in the first loop of
`Package::parse`: only `url` is rewritten. -/
def substSource (vars : List (String × String)) (s : Source) : Option Source :=
  (replaceVars vars s.url).map (fun u => { s with url := u })

/-- Substitution applied to one step, as in the second loop of
`Package::parse`: `command` for a `Command` step, `path` for a `Move`
step; the step name and the runner are untouched. -/
def substStep (vars : List (String × String)) (st : Step) : Option Step :=
  match st.variant with
  | StepVariant.command r c =>
    (replaceVars vars c).map (fun c2 => { st with variant := StepVariant.command r c2 })
  | StepVariant.move pa =>
    (replaceVars vars pa).map (fun p2 => { st with variant := StepVariant.move p2 })

/-- `Package::parse` after deserialization: build the variable table, then
substitute every source url and every step's variable-bearing field.
Deserialization itself (`toml_edit` and `serde`) is an external
collaborator, so the model starts from the deserialized `Package` value.
`none` models the propagated panic of `replace_vars`. -/
def Package.parse (cwd : String) (p : Package) : Option Package :=
  match p.sources.mapM (substSource (parseVars cwd p)),
        p.steps.mapM (substStep (parseVars cwd p)) with
  | some ss, some ts => some { p with sources := ss, steps := ts }
  | _, _ => none

/-! ## Checksum verification (`src/lib.rs`) -/

/-- The three failure exits of `check_hash`: the `?` on `fs::read`, the
`Invalid checksum format` error when the string has no colon, and the
`Unsupported hash` bail. -/
inductive HashError where
  | ioError
  | invalidFormat
  | unsupported
deriving DecidableEq

/-- Outcome of `check_hash`, mirroring `Result<bool>`. -/
inductive HashResult where
  | ok (b : Bool)
  | error (e : HashError)
deriving DecidableEq

/-- `str::split_once(':')`: split at the first colon, or `none` when the
string has no colon. -/
def splitOnceColon : List Char → Option (List Char × List Char)
  | [] => none
  | c :: rest =>
    if c = ':' then some ([], rest)
    else (splitOnceColon rest).map (fun pr => (c :: pr.1, pr.2))

/-- One lowercase hexadecimal digit, as emitted by `base16ct::lower` and
`blake3::Hash::to_hex`. -/
def hexDigitChar (n : Nat) : Char :=
  match n with
  | 0 => '0' | 1 => '1' | 2 => '2' | 3 => '3'
  | 4 => '4' | 5 => '5' | 6 => '6' | 7 => '7'
  | 8 => '8' | 9 => '9' | 10 => 'a' | 11 => 'b'
  | 12 => 'c' | 13 => 'd' | 14 => 'e' | _ => 'f'

/-- Lowercase hexadecimal encoding of a byte sequence, high nibble first. -/
def hexLower : List Nat → List Char
  | [] => []
  | b :: rest => hexDigitChar (b / 16 % 16) :: hexDigitChar (b % 16) :: hexLower rest

/-- The two digest computations `check_hash` delegates to the `sha2` and
`blake3` crates, abstracted as byte-level functions. -/
structure HashFns where
  sha256 : List Nat → List Nat
  blake3 : List Nat → List Nat

/-- `check_hash` from `src/lib.rs`: read the file (modelled as
`Option (List Nat)`, `none` for an unreadable path), then split the
checksum string at its first colon, compute the named digest in lowercase
hex, and compare it to the expected hex exactly. -/
def check_hash (H : HashFns) (file : Option (List Nat)) (hash : String) : HashResult :=
  match file with
  | none => HashResult.error HashError.ioError
  | some contents =>
    match splitOnceColon hash.data with
    | none => HashResult.error HashError.invalidFormat
    | some (ht, hx) =>
      if ht = "blake3".data then HashResult.ok (hx == hexLower (H.blake3 contents))
      else if ht = "sha256".data then HashResult.ok (hx == hexLower (H.sha256 contents))
      else HashResult.error HashError.unsupported

/-! ## Archive output path (`create_tarball` in `src/lib.rs`) -/

/-- The archive file name `format!("{}-{}.peach", info.name, info.version)`. -/
def tarballName (p : Package) : String :=
  p.info.name ++ "-" ++ p.info.version ++ ".peach"

/-- The archive output path `current_dir()?.join(&tarball_name)`, for the
ordinary case of a relative single-component file name. -/
def tarballPath (cwd : String) (p : Package) : String :=
  cwd ++ "/" ++ tarballName p

/-- The last path component of a path string: the text after its final
slash. -/
def lastComponent (s : String) : String :=
  String.mk (((s.data.reverse).takeWhile (fun c => c ≠ '/')).reverse)

/-- A placeholder match starting at the current position, right after the
percent: an open brace, a nonempty brace-free name, a close brace. -/
def matchAt (l : List Char) : Prop :=
  ∃ name post, l = '\x7b' :: (name ++ '\x7d' :: post) ∧ name ≠ [] ∧ '\x7d' ∉ name

/-! ## Concrete manifests used to exercise the model -/

/-- A manifest whose `directories` mapping carries a placeholder; it has
no sources and no steps, so parsing succeeds without touching it. -/
def pkg0 : Package :=
  { info := { name := "foo", version := "1.0", description := "demo", license := "MIT" }
  , dependencies := none
  , sources := []
  , steps := []
  , directories := [("bin", "%\x7bpkgdir\x7d/bin")] }

/-- A manifest exercising every substituted field. -/
def pkgW : Package :=
  { info := { name := "foo", version := "1.0", description := "demo", license := "MIT" }
  , dependencies := some { required := ["zlib"], optional := [], build := ["make"] }
  , sources := [{ url := "https://x/%\x7bversion\x7d.tar.gz", checksum := "sha256:aa" }]
  , steps :=
      [ { name := "build", variant := StepVariant.command Runner.shell "make %\x7bversion\x7d" }
      , { name := "stage", variant := StepVariant.move "%\x7bpkgdir\x7d/bin" } ]
  , directories := [("bin", "%\x7bpkgdir\x7d/bin")] }

/-- The result of parsing `pkgW` with working directory "/cwd". -/
def pkgW2 : Package :=
  { pkgW with
    sources := [{ url := "https://x/1.0.tar.gz", checksum := "sha256:aa" }]
  , steps :=
      [ { name := "build", variant := StepVariant.command Runner.shell "make 1.0" }
      , { name := "stage", variant := StepVariant.move "/cwd/package/bin" } ] }

/-- A trivial digest assignment used to evaluate `check_hash` concretely. -/
def idHash : HashFns :=
  { sha256 := fun l => l, blake3 := fun l => l }

/-! ## Basic scanning lemmas -/

theorem hasPH_collect_of_no_brace :
    ∀ (l : List Char), '\x7d' ∉ l → ∀ name, hasPH (ScanSt.collecting name) l = false := by
  intro l
  induction l with
  | nil => intro _ name; rfl
  | cons c rest ih =>
    intro h name
    have hc : c ≠ '\x7d' := fun hc => h (by simp [hc])
    simp only [hasPH, if_neg hc]
    exact ih (fun hm => h (List.mem_cons_of_mem _ hm)) _

theorem hasPH_append_of_no_pct :
    ∀ (m t : List Char), (∀ c ∈ m, c ≠ '%') →
      hasPH ScanSt.normal (m ++ t) = hasPH ScanSt.normal t := by
  intro m
  induction m with
  | nil => intro t _; rfl
  | cons c m ih =>
    intro t h
    have hc : c ≠ '%' := h c (List.mem_cons_self c m)
    simp only [List.cons_append, hasPH, if_neg hc]
    exact ih t (fun d hd => h d (List.mem_cons_of_mem _ hd))

theorem hasPH_pct_eq_of_head :
    ∀ (m : List Char), m.head? ≠ some '\x7b' →
      hasPH ScanSt.pct m = hasPH ScanSt.normal m := by
  intro m hm
  match m with
  | [] => rfl
  | c :: r =>
    have hc : c ≠ '\x7b' := fun h => hm (by simp [h])
    by_cases hp : c = '%'
    · subst hp; simp [hasPH]
    · simp [hasPH, hc, hp]

/-! ## The declarative placeholder grammar and its equivalence with the
scanner -/

theorem occ_nil : ¬ occ [] := by
  rintro ⟨pre, name, post, h, -, -⟩
  cases pre <;> simp at h

theorem occ_cons (c : Char) (l : List Char) :
    occ (c :: l) ↔ (c = '%' ∧ matchAt l) ∨ occ l := by
  constructor
  · rintro ⟨pre, name, post, h, hn, hb⟩
    cases pre with
    | nil =>
      simp only [List.nil_append] at h
      injection h with h1 h2
      exact Or.inl ⟨h1, name, post, h2, hn, hb⟩
    | cons d pre =>
      simp only [List.cons_append] at h
      injection h with h1 h2
      exact Or.inr ⟨pre, name, post, h2, hn, hb⟩
  · rintro (⟨hc, name, post, h, hn, hb⟩ | ⟨pre, name, post, h, hn, hb⟩)
    · exact ⟨[], name, post, by simp [hc, h], hn, hb⟩
    · exact ⟨c :: pre, name, post, by simp [h], hn, hb⟩

theorem matchAt_cons (c : Char) (l : List Char) :
    matchAt (c :: l) ↔
      (c = '\x7b' ∧ ∃ name post, l = name ++ '\x7d' :: post ∧ name ≠ [] ∧ '\x7d' ∉ name) := by
  constructor
  · rintro ⟨name, post, h, hn, hb⟩
    injection h with h1 h2
    exact ⟨h1, name, post, h2, hn, hb⟩
  · rintro ⟨hc, name, post, h, hn, hb⟩
    exact ⟨name, post, by simp [hc, h], hn, hb⟩

theorem no_first_brace_split (rest : List Char) :
    ¬ ∃ name post, ('\x7d' :: rest : List Char) = name ++ '\x7d' :: post ∧
      name ≠ [] ∧ '\x7d' ∉ name := by
  rintro ⟨name, post, h, hn, hb⟩
  cases name with
  | nil => exact hn rfl
  | cons d name =>
    simp only [List.cons_append] at h
    injection h with h1 h2
    exact hb (List.mem_cons.mpr (Or.inl h1))

theorem occ_brace_mem {l : List Char} (h : occ l) : '\x7d' ∈ l := by
  obtain ⟨pre, name, post, h, -, -⟩ := h
  subst h
  simp

theorem occ_length {l : List Char} (h : occ l) : 4 ≤ l.length := by
  obtain ⟨pre, name, post, h, hn, -⟩ := h
  subst h
  have h1 : 1 ≤ name.length := by
    cases name with
    | nil => exact absurd rfl hn
    | cons _ _ => simp
  simp only [List.length_append, List.length_cons]
  omega

theorem hasPH_iff_occ :
    ∀ l : List Char,
      (hasPH ScanSt.normal l = true ↔ occ l) ∧
      (hasPH ScanSt.pct l = true ↔ occ ('%' :: l)) ∧
      (∀ name, '\x7d' ∉ name →
        (hasPH (ScanSt.collecting name) l = true ↔
          occ ('%' :: '\x7b' :: (name ++ l)))) := by
  intro l
  induction l with
  | nil =>
    refine ⟨?_, ?_, ?_⟩
    · simpa [hasPH] using occ_nil
    · simp only [hasPH, Bool.false_eq_true, false_iff]
      intro h
      have := occ_length h
      simp at this
    · intro name hb
      simp only [hasPH, Bool.false_eq_true, false_iff]
      intro h
      have := occ_brace_mem h
      simp at this
      exact hb this
  | cons c rest ih =>
    obtain ⟨ihn, ihp, ihk⟩ := ih
    refine ⟨?_, ?_, ?_⟩
    · by_cases hc : c = '%'
      · subst hc
        simpa [hasPH] using ihp
      · rw [occ_cons]
        simp only [hc, false_and, false_or]
        simpa [hasPH, hc] using ihn
    · by_cases hb : c = '\x7b'
      · subst hb
        simpa [hasPH] using ihk [] (by simp)
      · by_cases hp : c = '%'
        · subst hp
          rw [occ_cons ('%' : Char) ('%' :: rest)]
          have hm : ¬ matchAt ('%' :: rest) := by
            rw [matchAt_cons]
            rintro ⟨h, -⟩
            exact absurd h (by decide)
          simp only [hm, and_false, false_or]
          simpa [hasPH] using ihp
        · rw [occ_cons ('%' : Char) (c :: rest)]
          have hm : ¬ matchAt (c :: rest) := by
            rw [matchAt_cons]
            rintro ⟨h, -⟩
            exact hb h
          simp only [hm, and_false, false_or, occ_cons c rest]
          simp only [hp, false_and, false_or]
          simpa [hasPH, hb, hp] using ihn
    · intro name hnb
      by_cases hd : c = '\x7d'
      · subst hd
        by_cases hn : name = []
        · subst hn
          rw [show (([] : List Char) ++ '\x7d' :: rest) = '\x7d' :: rest by simp]
          rw [occ_cons ('%' : Char) ('\x7b' :: '\x7d' :: rest)]
          have hm : ¬ matchAt ('\x7b' :: '\x7d' :: rest) := by
            rw [matchAt_cons]
            rintro ⟨-, hsplit⟩
            exact no_first_brace_split rest hsplit
          simp only [hm, and_false, false_or]
          rw [occ_cons ('\x7b' : Char) ('\x7d' :: rest)]
          simp only [show ('\x7b' : Char) ≠ '%' from by decide, false_and, false_or]
          rw [occ_cons ('\x7d' : Char) rest]
          simp only [show ('\x7d' : Char) ≠ '%' from by decide, false_and, false_or]
          simpa [hasPH] using ihn
        · exact iff_of_true (by simp [hasPH, hn]) ⟨[], name, rest, by simp, hn, hnb⟩
      · have hstep := ihk (name ++ [c]) (by
          intro hmem
          rcases List.mem_append.mp hmem with h1 | h1
          · exact hnb h1
          · simp at h1; exact hd h1.symm)
        rw [show name ++ c :: rest = (name ++ [c]) ++ rest by simp]
        simpa [hasPH, hd] using hstep

/-! ## Identity of the scan on placeholder-free input -/

theorem scan_id :
    ∀ (l : List Char) (vars : List (String × String)),
      (hasPH ScanSt.normal l = false → scan vars ScanSt.normal l = some l) ∧
      (hasPH ScanSt.pct l = false → scan vars ScanSt.pct l = some ('%' :: l)) ∧
      (∀ name, hasPH (ScanSt.collecting name) l = false →
        scan vars (ScanSt.collecting name) l = some ('%' :: '\x7b' :: (name ++ l))) := by
  intro l
  induction l with
  | nil =>
    intro vars
    refine ⟨fun _ => rfl, fun _ => rfl, fun name _ => by simp [scan]⟩
  | cons c rest ih =>
    intro vars
    obtain ⟨ihn, ihp, ihk⟩ := ih vars
    refine ⟨?_, ?_, ?_⟩
    · intro h
      by_cases hc : c = '%'
      · subst hc
        simp only [hasPH, if_pos rfl] at h
        simpa [scan] using ihp h
      · simp only [hasPH, if_neg hc] at h
        simp [scan, hc, ihn h]
    · intro h
      by_cases hb : c = '\x7b'
      · subst hb
        simp only [hasPH, if_pos rfl] at h
        simpa [scan] using ihk [] h
      · by_cases hp : c = '%'
        · subst hp
          simp only [hasPH] at h
          simp only [show ('%' : Char) ≠ '\x7b' from by decide, if_neg] at h
          simp [scan, ihp (by simpa using h)]
        · simp only [hasPH, if_neg hb, if_neg hp] at h
          simp [scan, hb, hp, ihn h]
    · intro name h
      by_cases hd : c = '\x7d'
      · subst hd
        by_cases hn : name = []
        · subst hn
          simp only [hasPH, if_pos rfl, if_pos rfl] at h
          simp [scan, ihn h]
        · simp only [hasPH, if_pos rfl, if_neg hn] at h
          exact absurd h (by simp)
      · simp only [hasPH, if_neg hd] at h
        have := ihk (name ++ [c]) h
        simp only [scan, if_neg hd]
        rw [this]
        simp

/-! ## Output of a scan with usable values is placeholder-free -/

theorem lookupVar_clean {vars : List (String × String)} (h : cleanVars vars)
    {k v : String} (hl : lookupVar vars k = some v) : cleanVal v := by
  obtain ⟨pr, hf, hv⟩ := Option.map_eq_some'.mp hl
  have hmem : pr ∈ vars := List.mem_of_find?_eq_some hf
  exact hv ▸ h pr hmem

theorem head?_append_left {v t : List Char} (hv : v ≠ []) :
    (v ++ t).head? = v.head? := by
  cases v with
  | nil => exact absurd rfl hv
  | cons a v => rfl

theorem scan_clean :
    ∀ (l : List Char) (vars : List (String × String)), cleanVars vars →
      (∀ out, scan vars ScanSt.normal l = some out →
        hasPH ScanSt.normal out = false ∧
          (out.head? = some '\x7b' → l.head? = some '\x7b')) ∧
      (∀ out, scan vars ScanSt.pct l = some out →
        hasPH ScanSt.normal out = false ∧ out.head? ≠ some '\x7b') ∧
      (∀ name, '\x7d' ∉ name → ∀ out, scan vars (ScanSt.collecting name) l = some out →
        hasPH ScanSt.normal out = false ∧ out.head? ≠ some '\x7b') := by
  intro l
  induction l with
  | nil =>
    intro vars _
    refine ⟨?_, ?_, ?_⟩
    · intro out hout
      simp only [scan, Option.some.injEq] at hout
      subst hout
      exact ⟨rfl, by simp⟩
    · intro out hout
      simp only [scan, Option.some.injEq] at hout
      subst hout
      exact ⟨rfl, by simp⟩
    · intro name hnb out hout
      simp only [scan, Option.some.injEq] at hout
      subst hout
      refine ⟨?_, by simp⟩
      show hasPH ScanSt.normal ('%' :: '\x7b' :: name) = false
      simpa [hasPH] using hasPH_collect_of_no_brace name hnb []
  | cons c rest ih =>
    intro vars hv
    obtain ⟨ihn, ihp, ihk⟩ := ih vars hv
    refine ⟨?_, ?_, ?_⟩
    · intro out hout
      by_cases hc : c = '%'
      · subst hc
        simp only [scan, if_pos rfl] at hout
        obtain ⟨hph, hhd⟩ := ihp out hout
        exact ⟨hph, fun h => absurd h hhd⟩
      · simp only [scan, if_neg hc] at hout
        obtain ⟨t, ht, rfl⟩ := Option.map_eq_some'.mp hout
        obtain ⟨hph, -⟩ := ihn t ht
        constructor
        · simpa [hasPH, hc] using hph
        · intro h
          simp only [List.head?_cons, Option.some.injEq] at h ⊢
          exact h
    · intro out hout
      by_cases hb : c = '\x7b'
      · subst hb
        simp only [scan, if_pos rfl] at hout
        exact ihk [] (by simp) out hout
      · by_cases hp : c = '%'
        · subst hp
          simp only [scan, if_neg (show ('%' : Char) ≠ '\x7b' from by decide),
            if_pos rfl] at hout
          obtain ⟨t, ht, rfl⟩ := Option.map_eq_some'.mp hout
          obtain ⟨hph, hhd⟩ := ihp t ht
          refine ⟨?_, by simp⟩
          have := hasPH_pct_eq_of_head t hhd
          simp [hasPH, this, hph]
        · simp only [scan, if_neg hb, if_neg hp] at hout
          obtain ⟨t, ht, rfl⟩ := Option.map_eq_some'.mp hout
          obtain ⟨hph, -⟩ := ihn t ht
          refine ⟨?_, by simp⟩
          simp [hasPH, hb, hp, hph]
    · intro name hnb out hout
      by_cases hd : c = '\x7d'
      · subst hd
        by_cases hn : name = []
        · subst hn
          simp only [scan, if_pos rfl] at hout
          obtain ⟨t, ht, rfl⟩ := Option.map_eq_some'.mp hout
          obtain ⟨hph, -⟩ := ihn t ht
          refine ⟨?_, by simp⟩
          simp [hasPH, hph]
        · simp only [scan, if_pos rfl, if_neg hn] at hout
          cases hl : lookupVar vars (String.mk name) with
          | none => rw [hl] at hout; simp at hout
          | some v =>
            rw [hl] at hout
            simp only [Option.some_bind] at hout
            obtain ⟨t, ht, rfl⟩ := Option.map_eq_some'.mp hout
            obtain ⟨hph, -⟩ := ihn t ht
            obtain ⟨hne, hchars⟩ := lookupVar_clean hv hl
            constructor
            · rw [hasPH_append_of_no_pct v.data t (fun d hd2 => (hchars d hd2).1)]
              exact hph
            · rw [head?_append_left hne]
              cases hvd : v.data with
              | nil => exact absurd hvd hne
              | cons a va =>
                have ha := hchars a (by rw [hvd]; exact List.mem_cons_self _ _)
                simp [ha.2.1]
      · simp only [scan, if_neg hd] at hout
        exact ihk (name ++ [c]) (by
          intro hmem
          rcases List.mem_append.mp hmem with h1 | h1
          · exact hnb h1
          · simp at h1; exact hd h1.symm) out hout

/-! ## The scan succeeds when every captured name is a key -/

theorem scan_isSome :
    ∀ (l : List Char) (vars : List (String × String)),
      ((∀ nm ∈ phNames ScanSt.normal l, (lookupVar vars nm).isSome) →
        (scan vars ScanSt.normal l).isSome) ∧
      ((∀ nm ∈ phNames ScanSt.pct l, (lookupVar vars nm).isSome) →
        (scan vars ScanSt.pct l).isSome) ∧
      (∀ name, (∀ nm ∈ phNames (ScanSt.collecting name) l, (lookupVar vars nm).isSome) →
        (scan vars (ScanSt.collecting name) l).isSome) := by
  intro l
  induction l with
  | nil =>
    intro vars
    exact ⟨fun _ => rfl, fun _ => rfl, fun name _ => rfl⟩
  | cons c rest ih =>
    intro vars
    obtain ⟨ihn, ihp, ihk⟩ := ih vars
    refine ⟨?_, ?_, ?_⟩
    · intro h
      by_cases hc : c = '%'
      · subst hc
        simp only [scan, if_pos rfl]
        exact ihp (by simpa [phNames] using h)
      · simp only [scan, if_neg hc, Option.isSome_map']
        exact ihn (by simpa [phNames, hc] using h)
    · intro h
      by_cases hb : c = '\x7b'
      · subst hb
        simp only [scan, if_pos rfl]
        exact ihk [] (by simpa [phNames] using h)
      · by_cases hp : c = '%'
        · subst hp
          simp [scan, Option.isSome_map']
          exact ihp (by simpa [phNames, hb] using h)
        · simp only [scan, if_neg hb, if_neg hp, Option.isSome_map']
          exact ihn (by simpa [phNames, hb, hp] using h)
    · intro name h
      by_cases hd : c = '\x7d'
      · subst hd
        by_cases hn : name = []
        · subst hn
          simp [scan, Option.isSome_map']
          exact ihn (by simpa [phNames] using h)
        · have hname : (lookupVar vars (String.mk name)).isSome := by
            apply h
            simp [phNames, hn]
          obtain ⟨v, hval⟩ := Option.isSome_iff_exists.mp hname
          simp [scan, hn, hval, Option.isSome_map']
          exact ihn (by
            intro nm hm
            apply h
            simp [phNames, hn]
            exact Or.inr hm)
      · simp only [scan, if_neg hd]
        exact ihk (name ++ [c]) (by simpa [phNames, hd] using h)

/-! ## mapM over Option, element-wise -/

theorem mapM_eq_some_forall2 {α β : Type} (f : α → Option β) :
    ∀ (l : List α) (l2 : List β), l.mapM f = some l2 →
      List.Forall₂ (fun a b => f a = some b) l l2 := by
  intro l
  induction l with
  | nil =>
    intro l2 h
    simp only [List.mapM_nil, Option.pure_def, Option.some.injEq] at h
    subst h
    exact List.Forall₂.nil
  | cons a l ih =>
    intro l2 h
    rw [List.mapM_cons] at h
    cases hfa : f a with
    | none => rw [hfa] at h; simp at h
    | some b =>
      rw [hfa] at h
      cases hml : l.mapM f with
      | none => rw [hml] at h; simp at h
      | some bs =>
        rw [hml] at h
        simp at h
        subst h
        exact List.Forall₂.cons hfa (ih bs hml)

theorem forall2_mem_right {α β : Type} {R : α → β → Prop} :
    ∀ {l : List α} {l2 : List β}, List.Forall₂ R l l2 → ∀ b ∈ l2, ∃ a ∈ l, R a b := by
  intro l l2 h
  induction h with
  | nil => intro b hb; simp at hb
  | cons hR hF ih =>
    intro b hb
    rcases List.mem_cons.mp hb with rfl | hb
    · exact ⟨_, List.mem_cons_self _ _, hR⟩
    · obtain ⟨a, ha, hr⟩ := ih b hb
      exact ⟨a, List.mem_cons_of_mem _ ha, hr⟩

theorem forall2_map_eq {α β γ : Type} {R : α → β → Prop} {f : α → γ} {g : β → γ}
    {l : List α} {l2 : List β} (h : List.Forall₂ R l l2)
    (hfg : ∀ a b, R a b → g b = f a) : l2.map g = l.map f := by
  induction h with
  | nil => rfl
  | cons hR hF ih => simp [ih, hfg _ _ hR]

/-! ## Hex encoding and checksum-string lemmas -/

theorem hexDigitChar_inj_fin :
    ∀ a b : Fin 16, hexDigitChar a.val = hexDigitChar b.val → a = b := by decide

theorem hexLower_inj :
    ∀ (l1 l2 : List Nat), (∀ b ∈ l1, b < 256) → (∀ b ∈ l2, b < 256) →
      hexLower l1 = hexLower l2 → l1 = l2 := by
  intro l1
  induction l1 with
  | nil =>
    intro l2 _ _ h
    cases l2 with
    | nil => rfl
    | cons b l2 => simp [hexLower] at h
  | cons a l1 ih =>
    intro l2 h1 h2 h
    cases l2 with
    | nil => simp [hexLower] at h
    | cons b l2 =>
      simp only [hexLower, List.cons.injEq] at h
      obtain ⟨hhi, hlo, htail⟩ := h
      have ha : a < 256 := h1 a (List.mem_cons_self _ _)
      have hb : b < 256 := h2 b (List.mem_cons_self _ _)
      have hd1 : a / 16 % 16 = b / 16 % 16 := by
        have h16 := hexDigitChar_inj_fin ⟨a / 16 % 16, Nat.mod_lt _ (by norm_num)⟩
          ⟨b / 16 % 16, Nat.mod_lt _ (by norm_num)⟩ hhi
        exact congrArg Fin.val h16
      have hd2 : a % 16 = b % 16 := by
        have h16 := hexDigitChar_inj_fin ⟨a % 16, Nat.mod_lt _ (by norm_num)⟩
          ⟨b % 16, Nat.mod_lt _ (by norm_num)⟩ hlo
        exact congrArg Fin.val h16
      have hab : a = b := by omega
      rw [hab, ih l2 (fun d hd => h1 d (List.mem_cons_of_mem _ hd))
        (fun d hd => h2 d (List.mem_cons_of_mem _ hd)) htail]

theorem splitOnceColon_of_no_colon :
    ∀ (l : List Char), ':' ∉ l → splitOnceColon l = none := by
  intro l
  induction l with
  | nil => intro _; rfl
  | cons c rest ih =>
    intro h
    have hc : c ≠ ':' := fun hc => h (by simp [hc])
    simp [splitOnceColon, hc, ih (fun hm => h (List.mem_cons_of_mem _ hm))]

theorem splitOnceColon_append :
    ∀ (a : List Char), ':' ∉ a → ∀ b, splitOnceColon (a ++ ':' :: b) = some (a, b) := by
  intro a
  induction a with
  | nil => intro _ b; simp [splitOnceColon]
  | cons c a ih =>
    intro h b
    have hc : c ≠ ':' := fun hc => h (by simp [hc])
    simp [splitOnceColon, hc, ih (fun hm => h (List.mem_cons_of_mem _ hm)) b]

/-! ## Path-component lemma for the tarball path -/

theorem takeWhile_append_all (p : Char → Bool) :
    ∀ (l1 : List Char) (c0 : Char) (l2 : List Char),
      (∀ c ∈ l1, p c = true) → p c0 = false →
      (l1 ++ c0 :: l2).takeWhile p = l1 := by
  intro l1
  induction l1 with
  | nil =>
    intro c0 l2 _ hc
    simp [List.takeWhile_cons, hc]
  | cons a l1 ih =>
    intro c0 l2 h hc
    simp only [List.cons_append, List.takeWhile_cons, h a (List.mem_cons_self _ _)]
    simp [ih c0 l2 (fun d hd => h d (List.mem_cons_of_mem _ hd)) hc]

/-! ## Composite corollaries of the scanning lemmas -/

theorem replaceVars_clean {vars : List (String × String)} (hv : cleanVars vars)
    {s out : String} (h : replaceVars vars s = some out) : ¬ occ out.data := by
  unfold replaceVars at h
  obtain ⟨t, ht, rfl⟩ := Option.map_eq_some'.mp h
  have hph := ((scan_clean s.data vars hv).1 t ht).1
  intro hocc
  rw [(hasPH_iff_occ t).1.mpr hocc] at hph
  cases hph

theorem replaceVars_eq_self {vars : List (String × String)} {s : String}
    (h : ¬ occ s.data) : replaceVars vars s = some s := by
  unfold replaceVars
  have hfalse : hasPH ScanSt.normal s.data = false := by
    cases hb : hasPH ScanSt.normal s.data
    · rfl
    · exact absurd ((hasPH_iff_occ s.data).1.mp hb) h
  rw [(scan_id s.data vars).1 hfalse]
  rfl

theorem replaceVars_defined {vars : List (String × String)} {s : String}
    (hkeys : ∀ nm ∈ phNames ScanSt.normal s.data, (lookupVar vars nm).isSome) :
    (replaceVars vars s).isSome := by
  unfold replaceVars
  rw [Option.isSome_map']
  exact (scan_isSome s.data vars).1 hkeys

/-! ## Parsing inversion lemmas -/

theorem parseVars_clean {cwd : String} {p : Package}
    (hver : cleanVal p.info.version)
    (hcwd : ∀ c ∈ cwd.data, c ≠ '%' ∧ c ≠ '\x7b' ∧ c ≠ '\x7d') :
    cleanVars (parseVars cwd p) := by
  intro pr hpr
  simp only [parseVars, List.mem_cons, List.mem_singleton] at hpr
  rcases hpr with h | h | h
  · rw [h]; exact hver
  · rw [h]
    constructor
    · show (cwd ++ "/package").data ≠ []
      rw [String.data_append]
      simp
    · intro c hc
      rw [String.data_append] at hc
      rcases List.mem_append.mp hc with h1 | h1
      · exact hcwd c h1
      · have hlit : ∀ d ∈ ("/package" : String).data,
            d ≠ '%' ∧ d ≠ '\x7b' ∧ d ≠ '\x7d' := by decide
        exact hlit c h1
  · simp at h

theorem substSource_inv {vars : List (String × String)} {s t : Source}
    (h : substSource vars s = some t) :
    replaceVars vars s.url = some t.url ∧ t.checksum = s.checksum := by
  unfold substSource at h
  obtain ⟨u, hu, rfl⟩ := Option.map_eq_some'.mp h
  exact ⟨hu, rfl⟩

theorem substStep_inv {vars : List (String × String)} {a b : Step}
    (h : substStep vars a = some b) :
    b.name = a.name ∧
    ((∃ r c c2, a.variant = StepVariant.command r c ∧
        b.variant = StepVariant.command r c2 ∧ replaceVars vars c = some c2) ∨
     (∃ pa pb, a.variant = StepVariant.move pa ∧ b.variant = StepVariant.move pb ∧
        replaceVars vars pa = some pb)) := by
  unfold substStep at h
  cases hv : a.variant with
  | command r c =>
    rw [hv] at h
    obtain ⟨c2, hc2, rfl⟩ := Option.map_eq_some'.mp h
    exact ⟨rfl, Or.inl ⟨r, c, c2, rfl, rfl, hc2⟩⟩
  | move pa =>
    rw [hv] at h
    obtain ⟨p2, hp2, rfl⟩ := Option.map_eq_some'.mp h
    exact ⟨rfl, Or.inr ⟨pa, p2, rfl, rfl, hp2⟩⟩

theorem parse_inv {cwd : String} {p q : Package} (h : Package.parse cwd p = some q) :
    List.Forall₂ (fun s t => substSource (parseVars cwd p) s = some t)
      p.sources q.sources ∧
    List.Forall₂ (fun a b => substStep (parseVars cwd p) a = some b)
      p.steps q.steps ∧
    q.info = p.info ∧ q.dependencies = p.dependencies ∧
    q.directories = p.directories := by
  unfold Package.parse at h
  cases hs : p.sources.mapM (substSource (parseVars cwd p)) with
  | none => rw [hs] at h; simp at h
  | some ss =>
    cases hts : p.steps.mapM (substStep (parseVars cwd p)) with
    | none => rw [hs, hts] at h; simp at h
    | some ts =>
      rw [hs, hts] at h
      simp only [Option.some.injEq] at h
      subst h
      exact ⟨mapM_eq_some_forall2 _ _ _ hs, mapM_eq_some_forall2 _ _ _ hts,
        rfl, rfl, rfl⟩

theorem lastComponent_append (pre t : String) (h : '/' ∉ t.data) :
    lastComponent (String.mk (pre.data ++ '/' :: t.data)) = t := by
  unfold lastComponent
  have hdata : (String.mk (pre.data ++ '/' :: t.data)).data = pre.data ++ '/' :: t.data := rfl
  rw [hdata]
  have hrev : (pre.data ++ '/' :: t.data).reverse =
      t.data.reverse ++ '/' :: pre.data.reverse := by
    simp [List.reverse_append]
  rw [hrev]
  rw [takeWhile_append_all _ t.data.reverse '/' pre.data.reverse
    (by
      intro c hc
      have : c ∈ t.data := List.mem_reverse.mp hc
      simp only [decide_eq_true_eq]
      intro hcEq
      exact h (hcEq ▸ this))
    (by simp)]
  simp

/-! ## Claims -/

/-- C1 counterexample: `Package::parse` succeeds on a manifest whose
`directories` value contains the placeholder text "%\x7bpkgdir\x7d", and
returns that value untouched, so a field of the parsed result does
contain an unresolved variable placeholder. -/
theorem c1_counterexample :
    Package.parse "/cwd" pkg0 = some pkg0 ∧
    pkg0.directories = [("bin", "%\x7bpkgdir\x7d/bin")] ∧
    occ ("%\x7bpkgdir\x7d/bin" : String).data :=
  ⟨by decide, by decide,
    ⟨[], "pkgdir".data, "/bin".data, by decide, by decide, by decide⟩⟩

/-- C1 (amended): substitution is applied only to source urls, command
strings and move paths; when the two variable values (`info.version` and
the joined package directory) are nonempty and free of the delimiter
characters, every substituted field of a successfully parsed manifest is
placeholder-free, while the directories mapping — like every field
outside those three — is returned exactly as deserialized and may retain
placeholder text. -/
theorem c1_substituted_fields_placeholder_free (cwd : String) (p q : Package)
    (hver : cleanVal p.info.version)
    (hcwd : ∀ c ∈ cwd.data, c ≠ '%' ∧ c ≠ '\x7b' ∧ c ≠ '\x7d')
    (h : Package.parse cwd p = some q) :
    (∀ s ∈ q.sources, ¬ occ s.url.data) ∧
    (∀ st ∈ q.steps, ∀ r c, st.variant = StepVariant.command r c → ¬ occ c.data) ∧
    (∀ st ∈ q.steps, ∀ pa, st.variant = StepVariant.move pa → ¬ occ pa.data) ∧
    q.directories = p.directories := by
  have hclean := parseVars_clean hver hcwd
  obtain ⟨hsrc, hstep, -, -, hdir⟩ := parse_inv h
  refine ⟨?_, ?_, ?_, hdir⟩
  · intro s hs
    obtain ⟨s0, -, hR⟩ := forall2_mem_right hsrc s hs
    exact replaceVars_clean hclean (substSource_inv hR).1
  · intro st hst r c hv
    obtain ⟨a, -, hR⟩ := forall2_mem_right hstep st hst
    obtain ⟨-, hcase⟩ := substStep_inv hR
    rcases hcase with ⟨r', c', c2, -, hb, hrv⟩ | ⟨pa, pb, -, hb, -⟩
    · have hc2 : c2 = c := by
        have := hv.symm.trans hb
        injection this with h1 h2
        exact h2.symm
      exact hc2 ▸ replaceVars_clean hclean hrv
    · exact absurd (hv.symm.trans hb) (by simp)
  · intro st hst pa hv
    obtain ⟨a, -, hR⟩ := forall2_mem_right hstep st hst
    obtain ⟨-, hcase⟩ := substStep_inv hR
    rcases hcase with ⟨r', c', c2, -, hb, -⟩ | ⟨pa', pb, -, hb, hrv⟩
    · exact absurd (hv.symm.trans hb) (by simp)
    · have hp2 : pb = pa := by
        have := hv.symm.trans hb
        injection this with h1
        exact h1.symm
      exact hp2 ▸ replaceVars_clean hclean hrv

/-- C1 witness at a concrete manifest. -/
theorem c1_witness :
    (∀ s ∈ pkgW2.sources, ¬ occ s.url.data) ∧
    (∀ st ∈ pkgW2.steps, ∀ r c, st.variant = StepVariant.command r c → ¬ occ c.data) ∧
    (∀ st ∈ pkgW2.steps, ∀ pa, st.variant = StepVariant.move pa → ¬ occ pa.data) ∧
    pkgW2.directories = pkgW.directories :=
  c1_substituted_fields_placeholder_free "/cwd" pkgW pkgW2
    (by decide) (by decide) (by decide)

/-- C2: on a haystack containing a placeholder whose name is absent from
the table, `replace_vars` does not report an error value to its caller:
it reaches the `.expect("Unknown variable")` panic (modelled as `none`),
aborting instead of returning, exactly as the repository's own
`should_panic` test `test_missing_variable` asserts.  This evaluates the
code at the claim's failing input. -/
theorem c2_missing_variable_panics :
    replaceVars [] "Hi %\x7bname\x7d!" = none := by decide

/-- C3: `check_hash` on a readable file returns ok of exactly the
case-sensitive equality between the supplied hex and the lowercase
hexadecimal encoding of the named algorithm's digest of the contents,
for both sha256 and blake3; in particular it accepts the true sha256
encoding, and rejects it for any file whose digest differs. -/
theorem c3_check_hash_exact_hex (H : HashFns) (f : List Nat) (hx : List Char) :
    check_hash H (some f) (String.mk ("sha256".data ++ ':' :: hx)) =
      HashResult.ok (hx == hexLower (H.sha256 f)) ∧
    check_hash H (some f) (String.mk ("blake3".data ++ ':' :: hx)) =
      HashResult.ok (hx == hexLower (H.blake3 f)) ∧
    check_hash H (some f) (String.mk ("sha256".data ++ ':' :: hexLower (H.sha256 f))) =
      HashResult.ok true ∧
    (∀ f2 : List Nat, (∀ b ∈ H.sha256 f, b < 256) → (∀ b ∈ H.sha256 f2, b < 256) →
      H.sha256 f2 ≠ H.sha256 f →
      check_hash H (some f2) (String.mk ("sha256".data ++ ':' :: hexLower (H.sha256 f))) =
        HashResult.ok false) := by
  have hsha : ∀ (fc : List Nat) (hx2 : List Char),
      check_hash H (some fc) (String.mk ("sha256".data ++ ':' :: hx2)) =
        HashResult.ok (hx2 == hexLower (H.sha256 fc)) := fun fc hx2 => rfl
  refine ⟨hsha f hx, rfl, ?_, ?_⟩
  · rw [hsha]
    simp
  · intro f2 hb1 hb2 hne
    rw [hsha]
    have hfalse : (hexLower (H.sha256 f) == hexLower (H.sha256 f2)) = false := by
      apply beq_eq_false_iff_ne.mpr
      intro heq
      exact hne (hexLower_inj _ _ hb1 hb2 heq).symm
    rw [hfalse]

/-- C3 witness at a concrete digest assignment and file. -/
theorem c3_witness :
    check_hash idHash (some [0])
      (String.mk ("sha256".data ++ ':' :: hexLower (idHash.sha256 [0]))) =
      HashResult.ok true ∧
    check_hash idHash (some [1])
      (String.mk ("sha256".data ++ ':' :: hexLower (idHash.sha256 [0]))) =
      HashResult.ok false :=
  ⟨(c3_check_hash_exact_hex idHash [0] []).2.2.1,
   (c3_check_hash_exact_hex idHash [0] []).2.2.2 [1]
     (by decide) (by decide) (by decide)⟩

/-- C4: a checksum string without a colon makes `check_hash` fail with the
checksum-format error, and a tag before the first colon that is neither
"blake3" nor "sha256" makes it fail with the unsupported-algorithm
error. -/
theorem c4_checksum_format_errors (H : HashFns) (f : List Nat) (c : String)
    (alg hx : List Char)
    (h1 : ':' ∉ c.data) (h2 : ':' ∉ alg)
    (h3 : alg ≠ ("blake3" : String).data) (h4 : alg ≠ ("sha256" : String).data) :
    check_hash H (some f) c = HashResult.error HashError.invalidFormat ∧
    check_hash H (some f) (String.mk (alg ++ ':' :: hx)) =
      HashResult.error HashError.unsupported := by
  constructor
  · unfold check_hash
    rw [splitOnceColon_of_no_colon c.data h1]
  · unfold check_hash
    rw [show (String.mk (alg ++ ':' :: hx)).data = alg ++ ':' :: hx from rfl,
      splitOnceColon_append alg h2 hx]
    simp [h3, h4]

/-- C4 witness at the spec's two example inputs. -/
theorem c4_witness :
    check_hash idHash (some []) "nocolon" = HashResult.error HashError.invalidFormat ∧
    check_hash idHash (some []) (String.mk (("md5" : String).data ++ ':' :: ("deadbeef" : String).data)) =
      HashResult.error HashError.unsupported :=
  c4_checksum_format_errors idHash [] "nocolon" ("md5" : String).data
    ("deadbeef" : String).data (by decide) (by decide) (by decide) (by decide)

/-- C5: the archive is written to a path whose file name is the package
name, a dash, the version, and the fixed ".peach" extension, resolved
under the current working directory. -/
theorem c5_tarball_output_path (cwd : String) (p : Package)
    (h1 : '/' ∉ p.info.name.data) (h2 : '/' ∉ p.info.version.data) :
    tarballPath cwd p = cwd ++ "/" ++ tarballName p ∧
    lastComponent (tarballPath cwd p) = tarballName p ∧
    tarballName p = p.info.name ++ "-" ++ p.info.version ++ ".peach" := by
  refine ⟨rfl, ?_, rfl⟩
  have hnb : '/' ∉ (tarballName p).data := by
    unfold tarballName
    intro hmem
    simp only [String.data_append, List.mem_append] at hmem
    rcases hmem with ((hm | hm) | hm) | hm
    · exact h1 hm
    · have hlit : '/' ∉ ("-" : String).data := by decide
      exact hlit hm
    · exact h2 hm
    · have hlit : '/' ∉ (".peach" : String).data := by decide
      exact hlit hm
  have heq : tarballPath cwd p = String.mk (cwd.data ++ '/' :: (tarballName p).data) := by
    apply String.ext
    show ((cwd ++ "/") ++ tarballName p).data = cwd.data ++ '/' :: (tarballName p).data
    simp [String.data_append]
  rw [heq]
  exact lastComponent_append cwd (tarballName p) hnb

/-- C5 witness at a concrete manifest. -/
theorem c5_witness :
    tarballPath "/cwd" pkgW = "/cwd" ++ "/" ++ tarballName pkgW ∧
    lastComponent (tarballPath "/cwd" pkgW) = tarballName pkgW ∧
    tarballName pkgW = pkgW.info.name ++ "-" ++ pkgW.info.version ++ ".peach" :=
  c5_tarball_output_path "/cwd" pkgW (by decide) (by decide)

/-- C6 counterexample: with the table binding a to the value "%\x7ba"
(placeholder-opening text) and haystack "%\x7ba\x7d\x7d", every
placeholder name in the haystack is a key of the table and substitution
succeeds, yet substituting the result again changes it, so the result is
not a fixed point and the claim fails for this choice of values. -/
theorem c6_counterexample :
    (∀ nm ∈ phNames ScanSt.normal ("%\x7ba\x7d\x7d" : String).data,
      (lookupVar [("a", "%\x7ba")] nm).isSome) ∧
    replaceVars [("a", "%\x7ba")] "%\x7ba\x7d\x7d" = some "%\x7ba\x7d" ∧
    replaceVars [("a", "%\x7ba")] "%\x7ba\x7d" = some "%\x7ba" ∧
    ("%\x7ba" : String) ≠ "%\x7ba\x7d" := by decide

/-- C6 (amended): for every table whose values are nonempty and contain
none of the placeholder-delimiter characters, and every haystack whose
placeholder names are all keys of the table, substitution succeeds,
replaces every occurrence (no placeholder pattern survives in the
result), and substituting the result again is a no-op. -/
theorem c6_full_substitution_fixed_point (vars : List (String × String)) (s : String)
    (hclean : cleanVars vars)
    (hkeys : ∀ nm ∈ phNames ScanSt.normal s.data, (lookupVar vars nm).isSome) :
    ∃ out, replaceVars vars s = some out ∧ ¬ occ out.data ∧
      replaceVars vars out = some out := by
  obtain ⟨out, hout⟩ := Option.isSome_iff_exists.mp (replaceVars_defined hkeys)
  have hnocc := replaceVars_clean hclean hout
  exact ⟨out, hout, hnocc, replaceVars_eq_self hnocc⟩

/-- C6 witness on the repository's own test haystack. -/
theorem c6_witness :
    ∃ out, replaceVars [("name", "Mati"), ("greeting", "Hello")]
        "%\x7bgreeting\x7d, %\x7bname\x7d!" = some out ∧ ¬ occ out.data ∧
      replaceVars [("name", "Mati"), ("greeting", "Hello")] out = some out :=
  c6_full_substitution_fixed_point _ _ (by decide) (by decide)

/-- C7: the placeholder pattern is a percent, an open brace, one or more
characters none of which is a close brace, and a close brace (`occ`,
matched verbatim with no trimming and no nesting); on every string in
which this pattern never occurs, substitution returns the string
unchanged, for every variable table. -/
theorem c7_no_match_identity (vars : List (String × String)) (s : String)
    (h : ¬ occ s.data) : replaceVars vars s = some s :=
  replaceVars_eq_self h

/-- C7 witness: the string "%\x7b\x7d" (empty name) contains no match and
is returned unchanged. -/
theorem c7_witness :
    replaceVars [] "%\x7b\x7d" = some "%\x7b\x7d" :=
  c7_no_match_identity [] "%\x7b\x7d"
    (fun h => absurd (occ_length h) (by decide))

/-- C8: `fs::read` runs before the checksum string is split or the tag
examined, so an unreadable path yields the io error for every checksum
string, malformed or unsupported included. -/
theorem c8_io_error_first (H : HashFns) (c : String) :
    check_hash H none c = HashResult.error HashError.ioError := rfl

/-- C9: a successful parse builds its variable table with exactly two
entries, version mapped to `info.version` and pkgdir mapped to the
working directory joined with "package", and applies substitution with
that table to every source url, every command step's command, and every
move step's path (preserving each step's runner). -/
theorem c9_parse_table_and_substitution (cwd : String) (p q : Package)
    (h : Package.parse cwd p = some q) :
    (parseVars cwd p).length = 2 ∧
    lookupVar (parseVars cwd p) "version" = some p.info.version ∧
    lookupVar (parseVars cwd p) "pkgdir" = some (cwd ++ "/package") ∧
    List.Forall₂ (fun (s t : Source) =>
      replaceVars (parseVars cwd p) s.url = some t.url ∧ t.checksum = s.checksum)
      p.sources q.sources ∧
    List.Forall₂ (fun (a b : Step) => b.name = a.name ∧
      ((∃ r c c2, a.variant = StepVariant.command r c ∧
          b.variant = StepVariant.command r c2 ∧
          replaceVars (parseVars cwd p) c = some c2) ∨
       (∃ pa pb, a.variant = StepVariant.move pa ∧ b.variant = StepVariant.move pb ∧
          replaceVars (parseVars cwd p) pa = some pb)))
      p.steps q.steps := by
  obtain ⟨hsrc, hstep, -, -, -⟩ := parse_inv h
  refine ⟨rfl, rfl, rfl, ?_, ?_⟩
  · exact List.Forall₂.imp (fun a b hR => substSource_inv hR) hsrc
  · exact List.Forall₂.imp (fun a b hR => substStep_inv hR) hstep

/-- C9 witness at a concrete manifest with one source and both step
kinds. -/
theorem c9_witness :
    (parseVars "/cwd" pkgW).length = 2 ∧
    lookupVar (parseVars "/cwd" pkgW) "version" = some pkgW.info.version ∧
    lookupVar (parseVars "/cwd" pkgW) "pkgdir" = some ("/cwd" ++ "/package") ∧
    List.Forall₂ (fun (s t : Source) =>
      replaceVars (parseVars "/cwd" pkgW) s.url = some t.url ∧ t.checksum = s.checksum)
      pkgW.sources pkgW2.sources ∧
    List.Forall₂ (fun (a b : Step) => b.name = a.name ∧
      ((∃ r c c2, a.variant = StepVariant.command r c ∧
          b.variant = StepVariant.command r c2 ∧
          replaceVars (parseVars "/cwd" pkgW) c = some c2) ∨
       (∃ pa pb, a.variant = StepVariant.move pa ∧ b.variant = StepVariant.move pb ∧
          replaceVars (parseVars "/cwd" pkgW) pa = some pb)))
      pkgW.steps pkgW2.steps :=
  c9_parse_table_and_substitution "/cwd" pkgW pkgW2 (by decide)

/-- C10: the substitution pass leaves every part of the manifest outside
the three substituted fields exactly as deserialized: info, dependencies,
the directories mapping, every source checksum and every step name. -/
theorem c10_parse_frame (cwd : String) (p q : Package)
    (h : Package.parse cwd p = some q) :
    q.info = p.info ∧ q.dependencies = p.dependencies ∧
    q.directories = p.directories ∧
    q.sources.map Source.checksum = p.sources.map Source.checksum ∧
    q.steps.map Step.name = p.steps.map Step.name := by
  obtain ⟨hsrc, hstep, hinfo, hdep, hdir⟩ := parse_inv h
  refine ⟨hinfo, hdep, hdir, ?_, ?_⟩
  · exact forall2_map_eq hsrc (fun a b hR => (substSource_inv hR).2)
  · exact forall2_map_eq hstep (fun a b hR => (substStep_inv hR).1)

/-- C10 witness at a concrete manifest. -/
theorem c10_witness :
    pkgW2.info = pkgW.info ∧ pkgW2.dependencies = pkgW.dependencies ∧
    pkgW2.directories = pkgW.directories ∧
    pkgW2.sources.map Source.checksum = pkgW.sources.map Source.checksum ∧
    pkgW2.steps.map Step.name = pkgW.steps.map Step.name :=
  c10_parse_frame "/cwd" pkgW pkgW2 (by decide)

end Blossom
